import Mathlib

set_option maxHeartbeats 1000000
set_option maxRecDepth 8000

/-!
Verification of the Fed text-mining core (sentence segmentation, section and
transcript structuring, sentiment label normalization and index aggregation).
Python strings are modelled as `List Char`; the relevant fragments of the
Python standard library (`str.split`, `str.strip`, `str.find`, `in`,
`str.upper`, `str.lower`, `str.replace`) are given explicit executable
definitions, and each source function is translated clause by clause.
-/

namespace FedText

/-- Python ASCII whitespace class used by str.split, str.strip and regex \s. -/
def isSpace (c : Char) : Bool :=
  c = ' ' || c = '\t' || c = '\n' || c = '\r' || c = Char.ofNat 11 || c = Char.ofNat 12

/-- Python str.lower (ASCII case mapping, which covers the label and marker alphabets). -/
def lowerL (s : List Char) : List Char := s.map Char.toLower

/-- Python str.upper (ASCII case mapping). -/
def upperL (s : List Char) : List Char := s.map Char.toUpper

/-- Python str.strip(): remove whitespace from both ends. -/
def stripL (s : List Char) : List Char :=
  ((s.dropWhile isSpace).reverse.dropWhile isSpace).reverse

/-- Python str.strip(chars): remove any of the given characters from both ends. -/
def stripSet (bad : List Char) (s : List Char) : List Char :=
  ((s.dropWhile (fun c => bad.contains c)).reverse.dropWhile (fun c => bad.contains c)).reverse

/-- Helper for `pySplit`: the accumulator holds the current token reversed. -/
def pySplitAux : List Char → List Char → List (List Char)
  | cur, [] => if cur.isEmpty then [] else [cur.reverse]
  | cur, c :: rest =>
    if isSpace c then
      if cur.isEmpty then pySplitAux [] rest else cur.reverse :: pySplitAux [] rest
    else pySplitAux (c :: cur) rest

/-- Python str.split() with no separator: split on whitespace runs, no empty tokens. -/
def pySplit (s : List Char) : List (List Char) := pySplitAux [] s

/-- Python len(s.split()): the word count of a string. -/
def wcount (s : List Char) : Nat := (pySplit s).length

/-- Python sep.join for a single-space separator. -/
def joinSpace : List (List Char) → List Char
  | [] => []
  | [w] => w
  | w :: ws => w ++ ' ' :: joinSpace ws

/-- Test whether needle occurs at the start of hay. -/
def isPre : List Char → List Char → Bool
  | [], _ => true
  | _ :: _, [] => false
  | a :: as, b :: bs => a = b && isPre as bs

/-- Python substring test (needle in hay). -/
def hasSubstr (needle : List Char) : List Char → Bool
  | [] => isPre needle []
  | c :: t => isPre needle (c :: t) || hasSubstr needle t

/-- Python str.find: index of the first occurrence of needle, none when absent. -/
def strFind (needle : List Char) : List Char → Option Nat
  | [] => if isPre needle [] then some 0 else none
  | c :: t => if isPre needle (c :: t) then some 0 else (strFind needle t).map (· + 1)

/-- Python str.replace("LABEL_", ""): delete every occurrence of LABEL_ (left to right). -/
def stripLABEL : List Char → List Char
  | 'L' :: 'A' :: 'B' :: 'E' :: 'L' :: '_' :: rest => stripLABEL rest
  | c :: rest => c :: stripLABEL rest
  | [] => []

/-- The cleaned label str(raw_label).upper().replace("LABEL_", "") shared by both
normalizers in utilities.py. -/
def cleanLabel (raw : List Char) : List Char := stripLABEL (upperL raw)

def negStr : List Char := "NEGATIVE".data
def posStr : List Char := "POSITIVE".data
def neuStr : List Char := "NEUTRAL".data
def hawkStr : List Char := "HAWK".data
def doveStr : List Char := "DOVE".data
def zeroStr : List Char := "0".data
def oneStr : List Char := "1".data
def twoStr : List Char := "2".data

/-- The branch structure of get_sentiment_label_FinBERT_FOMC in utilities.py
after the shared cleaning step. -/
def finbertCore (c : List Char) : String :=
  if hasSubstr negStr c then "Dovish"
  else if hasSubstr posStr c then "Hawkish"
  else if hasSubstr neuStr c then "Neutral"
  else if c = zeroStr then "Neutral"
  else if c = oneStr then "Hawkish"
  else if c = twoStr then "Dovish"
  else if hasSubstr hawkStr c then "Hawkish"
  else if hasSubstr doveStr c then "Dovish"
  else "Neutral"

/-- utilities.py get_sentiment_label_FinBERT_FOMC. -/
def get_sentiment_label_FinBERT_FOMC (raw : List Char) : String :=
  finbertCore (cleanLabel raw)

/-- The branch structure of get_sentiment_label_RoBERTa in utilities.py
after the shared cleaning step. -/
def robertaCore (c : List Char) : String :=
  if hasSubstr negStr c then "Dovish"
  else if hasSubstr posStr c then "Hawkish"
  else if hasSubstr neuStr c then "Neutral"
  else if c = zeroStr then "Dovish"
  else if c = oneStr then "Neutral"
  else if c = twoStr then "Hawkish"
  else "Neutral"

/-- utilities.py get_sentiment_label_RoBERTa. -/
def get_sentiment_label_RoBERTa (raw : List Char) : String :=
  robertaCore (cleanLabel raw)

/-- An apostrophe, written by code point. -/
def apostS : String := String.mk [Char.ofNat 39]

/-- The noise_phrases list of utilities.py is_noise_content. -/
def noisePhrases : List (List Char) :=
  [ "Thank you".data, "Thanks".data,
    ("You" ++ apostS ++ "re on mute").data, "Can you hear me".data,
    "[No response]".data, "(No response)".data, "hearing no objection".data,
    "so moved".data, "second".data, "all in favor".data, "aye".data,
    "Return to text".data]

/-- The character set of the Python strip("., ") call in is_noise_content. -/
def stripPunc : List Char := [ '.', ',', ' ']

/-- utilities.py is_noise_content: short or conversational-noise text. -/
def is_noise_content (text : List Char) : Bool :=
  if text.length < 5 then true
  else if noisePhrases.any (fun p => stripSet stripPunc (lowerL text) == lowerL p) then true
  else if text.length < 30 then
    noisePhrases.any (fun p => hasSubstr (lowerL p) (stripSet stripPunc (lowerL text)))
  else false

/-- State machine for the regex split (?<=[seps])\s+ : split the text at every
maximal whitespace run that directly follows one of the given characters.
The Bool is true while consuming such a run; the accumulator holds the
current piece reversed. -/
def splitAfterAux (seps : List Char) : Bool → List Char → List Char → List (List Char)
  | _, cur, [] => [cur.reverse]
  | true, cur, c :: rest =>
    if isSpace c then splitAfterAux seps true cur rest
    else splitAfterAux seps false (c :: cur) rest
  | false, cur, c :: rest =>
    if isSpace c then
      match cur with
      | p :: _ =>
        if seps.contains p then cur.reverse :: splitAfterAux seps true [] rest
        else splitAfterAux seps false (c :: cur) rest
      | [] => splitAfterAux seps false (c :: cur) rest
    else splitAfterAux seps false (c :: cur) rest

/-- Python re.split(r'(?<=[seps])\s+', s). -/
def splitAfter (seps : List Char) (s : List Char) : List (List Char) :=
  splitAfterAux seps false [] s

/-- The sentence-terminator class [.!?;] of split_long_sentence. -/
def puncSeps : List Char := [ '.', '!', '?', ';']

/-- The comma class [,] of split_long_sentence. -/
def commaSep : List Char := [ ',']

/-- The comma-splitting branch of utilities.py split_long_sentence for a part
of more than 40 words: keep stripped comma parts with at least 5 words and
20 characters. -/
def commaSubparts (p : List Char) : List (List Char) :=
  (splitAfter commaSep p).filterMap (fun cp =>
    if 5 ≤ wcount (stripL cp) ∧ 20 ≤ (stripL cp).length then some (stripL cp) else none)

/-- The per-part body of the loop in utilities.py split_long_sentence: a
stripped part survives with at least 5 words, 30 characters and no noise;
a surviving part of more than 40 words is replaced by its comma subparts. -/
def partContribution (part : List Char) : List (List Char) :=
  if 5 ≤ wcount (stripL part) ∧ 30 ≤ (stripL part).length ∧
      is_noise_content (stripL part) = false then
    (if 40 < wcount (stripL part) then commaSubparts (stripL part) else [stripL part])
  else []

/-- utilities.py split_long_sentence: split on sentence terminators, filter the
parts, and fall back to the unsplit sentence when nothing survives. -/
def split_long_sentence (s : List Char) : List (List Char) :=
  if (splitAfter puncSeps s).flatMap partContribution = [] then [s]
  else (splitAfter puncSeps s).flatMap partContribution

/-- The per-sentence body of the loop in utilities.py
split_into_sentences_robust: strip, discard short or noisy sentences, and
re-split sentences of more than 30 words. -/
def sentContribution (sent : List Char) : List (List Char) :=
  if wcount (stripL sent) < 5 ∨ (stripL sent).length < 30 then []
  else if is_noise_content (stripL sent) = true then []
  else if 30 < wcount (stripL sent) then split_long_sentence (stripL sent)
  else [stripL sent]

/-- utilities.py split_into_sentences_robust; the external NLTK sent_tokenize
collaborator is passed in as the function tok. -/
def split_into_sentences_robust (tok : List Char → List (List Char))
    (text : List Char) : List (List Char) :=
  if text = [] ∨ (stripL text).length < 10 then []
  else (tok text).flatMap sentContribution

/-- Index of the last newline of a list, if any. -/
def lastNl : List Char → Option Nat
  | [] => none
  | c :: rest =>
    match lastNl rest with
    | some i => some (i + 1)
    | none => if c = '\n' then some 0 else none

/-- Fuelled scanner for the regex split \n\s*\n (paragraph breaks): at each
newline whose following whitespace run contains another newline, the match
extends to the last newline of that run. Fuel at least the text length makes
the scan total. -/
def splitParasAux : Nat → List Char → List Char → List (List Char)
  | _, cur, [] => [cur.reverse]
  | 0, cur, rest => [cur.reverse ++ rest]
  | fuel + 1, cur, c :: rest =>
    if c = '\n' then
      match lastNl (rest.takeWhile isSpace) with
      | some i => cur.reverse :: splitParasAux fuel [] (rest.drop (i + 1))
      | none => splitParasAux fuel (c :: cur) rest
    else splitParasAux fuel (c :: cur) rest

/-- Python re.split(r'\n\s*\n', text). -/
def splitParas (s : List Char) : List (List Char) :=
  splitParasAux s.length [] s

/-- The sub-sentence separator class [;:,] of preprocess_content. -/
def subSeps : List Char := [ ';', ':', ',']

/-- The sentence-terminator class [.!?] of preprocess_content. -/
def endSeps : List Char := [ '.', '!', '?']

/-- The inner sentence loop of utilities.py preprocess_content for a long
paragraph: a stripped sentence of more than 15 words is split on [;:,], and
the stripped nonempty fragments of at least 3 words are kept. -/
def sentencePieces (sent : List Char) : List (List Char) :=
  if 15 < wcount (stripL sent) then
    (splitAfter subSeps (stripL sent)).filterMap (fun p =>
      if stripL p ≠ [] ∧ 3 ≤ wcount (stripL p) then some (stripL p) else none)
  else [stripL sent]

/-- The per-paragraph body of utilities.py preprocess_content: empty paragraphs
are dropped and paragraphs of more than 100 words are split into sentences. -/
def paraContribution (para : List Char) : List (List Char) :=
  if stripL para = [] then []
  else if 100 < wcount (stripL para) then
    (splitAfter endSeps (stripL para)).flatMap sentencePieces
  else [stripL para]

/-- Helper for force_split_long_segment: group a word list into consecutive
chunks of 50; the accumulator holds the current chunk reversed and the counter
the remaining capacity. -/
def chunksAux : List (List Char) → Nat → List (List Char) → List (List (List Char))
  | cur, _, [] => if cur.isEmpty then [] else [cur.reverse]
  | cur, 0, x :: rest => cur.reverse :: chunksAux [x] 49 rest
  | cur, k + 1, x :: rest => chunksAux (x :: cur) k rest

/-- The consecutive 50-word windows words[i:i+50] of force_split_long_segment. -/
def chunk50 (ws : List (List Char)) : List (List (List Char)) := chunksAux [] 50 ws

/-- utilities.py force_split_long_segment: join each 50-word window with single
spaces, keeping windows of at least 3 words. -/
def force_split_long_segment (text : List Char) : List (List Char) :=
  (chunk50 (pySplit text)).filterMap (fun w =>
    if 3 ≤ w.length then some (joinSpace w) else none)

/-- The final cleanup pass of utilities.py preprocess_content: keep segments of
3 to 100 words and force-split segments of more than 100 words. -/
def finalFilter (seg : List Char) : List (List Char) :=
  if 3 ≤ wcount seg ∧ wcount seg ≤ 100 then [seg]
  else if 100 < wcount seg then force_split_long_segment seg
  else []

/-- utilities.py preprocess_content. -/
def preprocess_content (text : List Char) : List (List Char) :=
  ((splitParas text).flatMap paraContribution).flatMap finalFilter

/-- utilities.py calculate_net_sentiment_counts; the pandas group is modelled by
the list of values of its sentiment column. -/
def calculate_net_sentiment_counts (group : List String) : ℚ :=
  let h := group.count "Hawkish"
  let d := group.count "Dovish"
  let n := group.count "Neutral"
  let total := h + d + n
  if total = 0 then 0 else (((h : ℚ) - (d : ℚ)) / ((total : ℕ) : ℚ))

/-- utilities.py calculate_net_sentiment_scores; the pandas group is modelled by
the list of (sentiment, sentiment_score) pairs of its rows, so the masked sums
and boolean-mask counts become sums and lengths over filtered lists. -/
def calculate_net_sentiment_scores (group : List (String × ℚ)) : ℚ :=
  if (group.filter (fun r => r.1 == "Hawkish")).length +
      (group.filter (fun r => r.1 == "Dovish")).length = 0 then 0
  else
    (((group.filter (fun r => r.1 == "Hawkish")).map (fun r => r.2)).sum -
        ((group.filter (fun r => r.1 == "Dovish")).map (fun r => r.2)).sum) /
      (((group.filter (fun r => r.1 == "Hawkish")).length +
          (group.filter (fun r => r.1 == "Dovish")).length : ℕ) : ℚ)

/-- Claim C1: both label normalizers are total into {Hawkish, Dovish, Neutral}:
a cleaned label containing NEGATIVE maps to Dovish and one containing POSITIVE
(and not NEGATIVE, which the code checks first) maps to Hawkish in both
families; numeric codes are family-dependent (FinBERT-FOMC 0/1/2 to
Neutral/Hawkish/Dovish, RoBERTa 0/1/2 to Dovish/Neutral/Hawkish); a label
matching none of the recognized patterns maps to Neutral in both. -/
theorem claim_C1 (raw : List Char) :
    (get_sentiment_label_FinBERT_FOMC raw = "Hawkish" ∨
      get_sentiment_label_FinBERT_FOMC raw = "Dovish" ∨
      get_sentiment_label_FinBERT_FOMC raw = "Neutral") ∧
    (get_sentiment_label_RoBERTa raw = "Hawkish" ∨
      get_sentiment_label_RoBERTa raw = "Dovish" ∨
      get_sentiment_label_RoBERTa raw = "Neutral") ∧
    (hasSubstr negStr (cleanLabel raw) = true →
      get_sentiment_label_FinBERT_FOMC raw = "Dovish" ∧
      get_sentiment_label_RoBERTa raw = "Dovish") ∧
    (hasSubstr posStr (cleanLabel raw) = true → hasSubstr negStr (cleanLabel raw) = false →
      get_sentiment_label_FinBERT_FOMC raw = "Hawkish" ∧
      get_sentiment_label_RoBERTa raw = "Hawkish") ∧
    (cleanLabel raw = zeroStr →
      get_sentiment_label_FinBERT_FOMC raw = "Neutral" ∧
      get_sentiment_label_RoBERTa raw = "Dovish") ∧
    (cleanLabel raw = oneStr →
      get_sentiment_label_FinBERT_FOMC raw = "Hawkish" ∧
      get_sentiment_label_RoBERTa raw = "Neutral") ∧
    (cleanLabel raw = twoStr →
      get_sentiment_label_FinBERT_FOMC raw = "Dovish" ∧
      get_sentiment_label_RoBERTa raw = "Hawkish") ∧
    (hasSubstr negStr (cleanLabel raw) = false → hasSubstr posStr (cleanLabel raw) = false →
      hasSubstr neuStr (cleanLabel raw) = false → cleanLabel raw ≠ zeroStr →
      cleanLabel raw ≠ oneStr → cleanLabel raw ≠ twoStr →
      hasSubstr hawkStr (cleanLabel raw) = false → hasSubstr doveStr (cleanLabel raw) = false →
      get_sentiment_label_FinBERT_FOMC raw = "Neutral" ∧
      get_sentiment_label_RoBERTa raw = "Neutral") := by
  unfold get_sentiment_label_FinBERT_FOMC get_sentiment_label_RoBERTa
  refine ⟨?_, ?_, ?_, ?_, ?_, ?_, ?_, ?_⟩
  · unfold finbertCore; split_ifs <;> simp
  · unfold robertaCore; split_ifs <;> simp
  · intro hneg; simp [finbertCore, robertaCore, hneg]
  · intro hpos hneg; simp [finbertCore, robertaCore, hpos, hneg]
  · intro h0; rw [h0]; exact ⟨by decide, by decide⟩
  · intro h1; rw [h1]; exact ⟨by decide, by decide⟩
  · intro h2; rw [h2]; exact ⟨by decide, by decide⟩
  · intro hneg hpos hneu h0 h1 h2 hh hd
    simp [finbertCore, robertaCore, hneg, hpos, hneu, h0, h1, h2, hh, hd]

/-- Witness for C1 at the concrete label LABEL_2. -/
theorem claim_C1_witness :
    get_sentiment_label_FinBERT_FOMC ("LABEL_2".data) = "Dovish" ∧
    get_sentiment_label_RoBERTa ("LABEL_2".data) = "Hawkish" :=
  (claim_C1 ("LABEL_2".data)).2.2.2.2.2.2.1 (by decide)

/-- Claim C4: the count-based index equals (hawkish - dovish) / (hawkish +
dovish + neutral), lies in [-1, 1], and is 0 for an empty total. -/
theorem claim_C4 (group : List String) :
    calculate_net_sentiment_counts group =
      (if group.count "Hawkish" + group.count "Dovish" + group.count "Neutral" = 0 then 0
       else ((group.count "Hawkish" : ℚ) - (group.count "Dovish" : ℚ)) /
         ((group.count "Hawkish" + group.count "Dovish" + group.count "Neutral" : ℕ) : ℚ)) ∧
    -1 ≤ calculate_net_sentiment_counts group ∧
    calculate_net_sentiment_counts group ≤ 1 ∧
    (group.count "Hawkish" + group.count "Dovish" + group.count "Neutral" = 0 →
      calculate_net_sentiment_counts group = 0) := by
  unfold calculate_net_sentiment_counts
  set h := group.count "Hawkish" with hh
  set d := group.count "Dovish" with hd
  set n := group.count "Neutral" with hn
  by_cases htot : h + d + n = 0
  · simp [htot]
  · have hpos : (0 : ℚ) < ((h + d + n : ℕ) : ℚ) := by
      exact_mod_cast Nat.pos_of_ne_zero htot
    have hcast : ((h : ℚ) - (d : ℚ)) ≤ ((h + d + n : ℕ) : ℚ) := by
      push_cast; linarith [Nat.cast_nonneg (α := ℚ) d, Nat.cast_nonneg (α := ℚ) n]
    have hcast2 : -(((h + d + n : ℕ) : ℚ)) ≤ ((h : ℚ) - (d : ℚ)) := by
      push_cast; linarith [Nat.cast_nonneg (α := ℚ) h, Nat.cast_nonneg (α := ℚ) n]
    refine ⟨by simp [htot], ?_, ?_, fun hc => absurd hc htot⟩
    · simp only [htot, if_false]
      rw [le_div_iff₀ hpos]; linarith
    · simp only [htot, if_false]
      rw [div_le_one hpos]; exact hcast

/-- Witness for C4 at a concrete group. -/
theorem claim_C4_witness :
    calculate_net_sentiment_counts [] = 0 ∧
    -1 ≤ calculate_net_sentiment_counts ["Hawkish", "Neutral"] ∧
    calculate_net_sentiment_counts ["Hawkish", "Neutral"] ≤ 1 :=
  ⟨(claim_C4 []).2.2.2 (by decide), (claim_C4 ["Hawkish", "Neutral"]).2.1,
    (claim_C4 ["Hawkish", "Neutral"]).2.2.1⟩

/-- Filtering for one label commutes with first removing differently-labeled
records. -/
theorem filter_label_of_filter_ne (group : List (String × ℚ)) (lbl : String)
    (hl : lbl ≠ "Neutral") :
    group.filter (fun r => r.1 == lbl) =
      (group.filter (fun r => !(r.1 == "Neutral"))).filter (fun r => r.1 == lbl) := by
  rw [List.filter_filter]
  refine List.filter_congr ?_
  intro x _
  cases h : x.1 == lbl with
  | false => simp
  | true =>
    have hx : x.1 = lbl := eq_of_beq h
    have : (x.1 == "Neutral") = false := by
      rw [hx]; exact beq_eq_false_iff_ne.mpr hl
    simp [this]

/-- Claim C5: the score-weighted index equals (hawkish score sum - dovish
score sum) / (hawkish count + dovish count), is 0 when that denominator is 0,
and is unchanged by adding or removing Neutral-labeled records. -/
theorem claim_C5 (group : List (String × ℚ)) :
    calculate_net_sentiment_scores group =
      (if (group.filter (fun r => r.1 == "Hawkish")).length +
          (group.filter (fun r => r.1 == "Dovish")).length = 0 then 0
       else
        (((group.filter (fun r => r.1 == "Hawkish")).map (fun r => r.2)).sum -
            ((group.filter (fun r => r.1 == "Dovish")).map (fun r => r.2)).sum) /
          (((group.filter (fun r => r.1 == "Hawkish")).length +
              (group.filter (fun r => r.1 == "Dovish")).length : ℕ) : ℚ)) ∧
    ((group.filter (fun r => r.1 == "Hawkish")).length +
        (group.filter (fun r => r.1 == "Dovish")).length = 0 →
      calculate_net_sentiment_scores group = 0) ∧
    (∀ sc : ℚ, calculate_net_sentiment_scores (("Neutral", sc) :: group) =
      calculate_net_sentiment_scores group) ∧
    calculate_net_sentiment_scores group =
      calculate_net_sentiment_scores (group.filter (fun r => !(r.1 == "Neutral"))) := by
  refine ⟨rfl, ?_, ?_, ?_⟩
  · intro h
    unfold calculate_net_sentiment_scores
    rw [if_pos h]
  · intro sc
    have h1 : List.filter (fun r => r.1 == "Hawkish") (("Neutral", sc) :: group) =
        List.filter (fun r => r.1 == "Hawkish") group := by
      rw [List.filter_cons]; simp
    have h2 : List.filter (fun r => r.1 == "Dovish") (("Neutral", sc) :: group) =
        List.filter (fun r => r.1 == "Dovish") group := by
      rw [List.filter_cons]; simp
    unfold calculate_net_sentiment_scores
    rw [h1, h2]
  · unfold calculate_net_sentiment_scores
    rw [← filter_label_of_filter_ne group "Hawkish" (by decide),
      ← filter_label_of_filter_ne group "Dovish" (by decide)]

/-- Witness for C5 at a concrete group with a Neutral record. -/
theorem claim_C5_witness :
    calculate_net_sentiment_scores [] = 0 ∧
    calculate_net_sentiment_scores (("Neutral", (7 : ℚ)) :: [("Hawkish", (1 : ℚ))]) =
      calculate_net_sentiment_scores [("Hawkish", (1 : ℚ))] :=
  ⟨(claim_C5 []).2.1 (by decide), (claim_C5 [("Hawkish", (1 : ℚ))]).2.2.1 7⟩

/-- Every word produced by pySplitAux from a whitespace-free accumulator is
nonempty and whitespace-free. -/
theorem pySplitAux_words (rest : List Char) : ∀ cur : List Char,
    (∀ c ∈ cur, isSpace c = false) →
    ∀ w ∈ pySplitAux cur rest, w ≠ [] ∧ ∀ c ∈ w, isSpace c = false := by
  induction rest with
  | nil =>
    intro cur hcur w hw
    simp only [pySplitAux] at hw
    split at hw
    · simp at hw
    · next hne =>
      simp only [List.mem_singleton] at hw
      subst hw
      refine ⟨?_, ?_⟩
      · simp only [ne_eq, List.reverse_eq_nil_iff]
        simpa [List.isEmpty_iff] using hne
      · intro c hc; exact hcur c (List.mem_reverse.mp hc)
  | cons c rest ih =>
    intro cur hcur w hw
    simp only [pySplitAux] at hw
    split at hw
    · split at hw
      · exact ih [] (by simp) w hw
      · rcases List.mem_cons.mp hw with h | h
        · subst h
          next hne =>
            refine ⟨?_, ?_⟩
            · simp only [ne_eq, List.reverse_eq_nil_iff]
              simpa [List.isEmpty_iff] using hne
            · intro x hx; exact hcur x (List.mem_reverse.mp hx)
        · exact ih [] (by simp) w h
    · next hsp =>
      refine ih (c :: cur) ?_ w hw
      intro x hx
      rcases List.mem_cons.mp hx with h | h
      · subst h; simpa using hsp
      · exact hcur x h

/-- Every word of pySplit is nonempty and whitespace-free. -/
theorem pySplit_words (s : List Char) :
    ∀ w ∈ pySplit s, w ≠ [] ∧ ∀ c ∈ w, isSpace c = false :=
  pySplitAux_words s [] (by simp)

/-- Scanning a whitespace-free token just accumulates it. -/
theorem pySplitAux_token (t : List Char) : ∀ cur rest : List Char,
    (∀ c ∈ t, isSpace c = false) →
    pySplitAux cur (t ++ rest) = pySplitAux (t.reverse ++ cur) rest := by
  induction t with
  | nil => intro cur rest _; simp
  | cons a t ih =>
    intro cur rest ht
    have ha : isSpace a = false := ht a (by simp)
    simp only [List.cons_append, pySplitAux, ha, Bool.false_eq_true, if_false,
      List.append_eq]
    rw [ih (a :: cur) rest (fun c hc => ht c (by simp [hc]))]
    simp

/-- Splitting a single-space join of nonempty whitespace-free words recovers
the words. -/
theorem pySplit_joinSpace (ws : List (List Char))
    (h : ∀ w ∈ ws, w ≠ [] ∧ ∀ c ∈ w, isSpace c = false) :
    pySplit (joinSpace ws) = ws := by
  induction ws with
  | nil => rfl
  | cons w ws ih =>
    cases ws with
    | nil =>
      obtain ⟨hne, hsp⟩ := h w (by simp)
      show pySplitAux [] (joinSpace [w]) = [w]
      have : joinSpace [w] = w ++ [] := by simp [joinSpace]
      rw [this, pySplitAux_token w [] [] hsp]
      simp only [pySplitAux, List.append_nil]
      rw [if_neg (by simpa [List.isEmpty_iff, List.reverse_eq_nil_iff] using hne)]
      simp
    | cons w1 ws1 =>
      obtain ⟨hne, hsp⟩ := h w (by simp)
      show pySplitAux [] (joinSpace (w :: w1 :: ws1)) = w :: w1 :: ws1
      have hj : joinSpace (w :: w1 :: ws1) = w ++ (' ' :: joinSpace (w1 :: ws1)) := rfl
      rw [hj, pySplitAux_token w [] _ hsp]
      simp only [List.append_nil, pySplitAux]
      rw [if_pos (by simp [isSpace]),
        if_neg (by simpa [List.isEmpty_iff, List.reverse_eq_nil_iff] using hne)]
      simp only [List.reverse_reverse]
      have ih2 := ih (fun x hx => h x (by simp [hx]))
      unfold pySplit at ih2
      rw [ih2]

/-- Word count of a single-space join of nonempty whitespace-free words. -/
theorem wcount_joinSpace (ws : List (List Char))
    (h : ∀ w ∈ ws, w ≠ [] ∧ ∀ c ∈ w, isSpace c = false) :
    wcount (joinSpace ws) = ws.length := by
  unfold wcount; rw [pySplit_joinSpace ws h]

/-- Flattening the 50-chunks recovers the word list. -/
theorem chunksAux_flatten (rest : List (List Char)) : ∀ (cur : List (List Char)) (k : Nat),
    (chunksAux cur k rest).flatten = cur.reverse ++ rest := by
  induction rest with
  | nil =>
    intro cur k
    simp only [chunksAux]
    split
    · next he => simp [List.isEmpty_iff.mp he]
    · simp
  | cons x rest ih =>
    intro cur k
    match k with
    | 0 => simp [chunksAux, ih]
    | k + 1 => simp [chunksAux, ih]

/-- Chunking with a nonempty accumulator yields a nonempty list. -/
theorem chunksAux_ne_nil (rest : List (List Char)) : ∀ (cur : List (List Char)) (k : Nat),
    cur ≠ [] → chunksAux cur k rest ≠ [] := by
  induction rest with
  | nil =>
    intro cur k hc
    simp only [chunksAux]
    rw [if_neg (by simpa [List.isEmpty_iff] using hc)]
    simp
  | cons x rest ih =>
    intro cur k hc
    match k with
    | 0 => simp [chunksAux]
    | k + 1 => exact ih (x :: cur) k (by simp)

/-- Every chunk is nonempty and has at most 50 words, given the capacity
invariant. -/
theorem chunksAux_mem_le (rest : List (List Char)) : ∀ (cur : List (List Char)) (k : Nat),
    cur.length + k = 50 →
    ∀ c ∈ chunksAux cur k rest, 0 < c.length ∧ c.length ≤ 50 := by
  induction rest with
  | nil =>
    intro cur k hinv c hc
    simp only [chunksAux] at hc
    split at hc
    · simp at hc
    · next hne =>
      simp only [List.mem_singleton] at hc
      subst hc
      have : cur ≠ [] := by simpa [List.isEmpty_iff] using hne
      have : 0 < cur.length := List.length_pos.mpr this
      simp only [List.length_reverse]
      omega
  | cons x rest ih =>
    intro cur k hinv c hc
    match k with
    | 0 =>
      simp only [chunksAux] at hc
      rcases List.mem_cons.mp hc with h | h
      · subst h; simp only [List.length_reverse]; omega
      · exact ih [x] 49 (by simp) c h
    | k + 1 =>
      exact ih (x :: cur) k (by simp; omega) c hc

/-- Every chunk except the last has exactly 50 words, given the capacity
invariant. -/
theorem chunksAux_dropLast (rest : List (List Char)) : ∀ (cur : List (List Char)) (k : Nat),
    cur.length + k = 50 →
    ∀ c ∈ (chunksAux cur k rest).dropLast, c.length = 50 := by
  induction rest with
  | nil =>
    intro cur k _ c hc
    simp only [chunksAux] at hc
    split at hc <;> simp at hc
  | cons x rest ih =>
    intro cur k hinv c hc
    match k with
    | 0 =>
      simp only [chunksAux] at hc
      rw [List.dropLast_cons_of_ne_nil (chunksAux_ne_nil rest [x] 49 (by simp))] at hc
      rcases List.mem_cons.mp hc with h | h
      · subst h; simp only [List.length_reverse]; omega
      · exact ih [x] 49 (by simp) c h
    | k + 1 =>
      exact ih (x :: cur) k (by simp; omega) c hc

/-- FilterMap with an if-some-none body is a filter followed by a map. -/
theorem filterMap_ite {α β : Type} (P : α → Prop) [DecidablePred P] (f : α → β)
    (l : List α) :
    l.filterMap (fun a => if P a then some (f a) else none) =
      (l.filter (fun a => decide (P a))).map f := by
  induction l with
  | nil => rfl
  | cons a l ih =>
    simp only [List.filterMap_cons, List.filter_cons]
    by_cases h : P a <;> simp [h, ih]

/-- Claim C7: split_long_sentence always returns a nonempty list, and when no
part survives the word-count, character-count and noise filters it returns
exactly the singleton original sentence. -/
theorem claim_C7 (s : List Char) :
    split_long_sentence s ≠ [] ∧
    ((∀ part ∈ splitAfter puncSeps s,
        ¬(5 ≤ wcount (stripL part) ∧ 30 ≤ (stripL part).length ∧
          is_noise_content (stripL part) = false)) →
      split_long_sentence s = [s]) := by
  constructor
  · unfold split_long_sentence
    split
    · simp
    · next hne => exact hne
  · intro hall
    have hv : (splitAfter puncSeps s).flatMap partContribution = [] := by
      rw [List.flatMap_eq_nil_iff]
      intro part hp
      unfold partContribution
      rw [if_neg (hall part hp)]
    unfold split_long_sentence
    rw [if_pos hv]

/-- Witness for C7 at a concrete two-character sentence. -/
theorem claim_C7_witness :
    split_long_sentence ("xx".data) ≠ [] ∧ split_long_sentence ("xx".data) = ["xx".data] :=
  ⟨(claim_C7 ("xx".data)).1, (claim_C7 ("xx".data)).2 (by decide)⟩

/-- A retained sentence of 31 single-letter words with no internal punctuation. -/
def exLong : List Char := joinSpace (List.replicate 31 ("a".data))

/-- Counterexample to C6 as stated: a retained sentence of more than 30 words
with no internal punctuation boundary is emitted unchanged as one single
output record (split_long_sentence falls back to the unsplit sentence). -/
theorem claim_C6_counterexample :
    30 < wcount exLong ∧
    split_into_sentences_robust (fun t => [t]) exLong = [exLong] := by decide

/-- Claim C6 (amended): a sentence retained by the segmenter with more than 30
words has split_long_sentence applied to it and the resulting sub-parts
spliced into the output in its place; the sub-parts may be the original
sentence itself when no boundary splits it or no part survives filtering. -/
theorem claim_C6_amended (tok : List Char → List (List Char)) (text sent : List Char)
    (hguard : ¬(text = [] ∨ (stripL text).length < 10))
    (hmem : sent ∈ tok text)
    (hkeep : ¬(wcount (stripL sent) < 5 ∨ (stripL sent).length < 30))
    (hnoise : is_noise_content (stripL sent) = false)
    (hlong : 30 < wcount (stripL sent)) :
    ∃ l r, split_into_sentences_robust tok text =
      l ++ split_long_sentence (stripL sent) ++ r := by
  obtain ⟨l1, l2, heq⟩ := List.append_of_mem hmem
  refine ⟨l1.flatMap sentContribution, l2.flatMap sentContribution, ?_⟩
  unfold split_into_sentences_robust
  rw [if_neg hguard, heq, List.flatMap_append, List.flatMap_cons]
  have hc : sentContribution sent = split_long_sentence (stripL sent) := by
    unfold sentContribution
    rw [if_neg hkeep, if_neg (by simp [hnoise]), if_pos hlong]
  rw [hc]
  simp [List.append_assoc]

/-- A 31-word sentence with an internal period boundary after word 16. -/
def exSplitText : List Char :=
  joinSpace (List.replicate 16 ("bb".data)) ++ ".".data ++ " ".data ++
    joinSpace (List.replicate 15 ("cc".data))

/-- Witness for the amended C6 at a concrete retained long sentence. -/
theorem claim_C6_amended_witness :
    ∃ l r, split_into_sentences_robust (fun t => [t]) exSplitText =
      l ++ split_long_sentence (stripL exSplitText) ++ r :=
  claim_C6_amended (fun t => [t]) exSplitText exSplitText (by decide) (by decide)
    (by decide) (by decide) (by decide)

/-- Claim C8: every sentence emitted by the segmenter has at least 5 words,
and at least 30 characters except on the comma-splitting path (parts of more
than 40 words), whose fragments still have at least 20 characters. -/
theorem claim_C8 (tok : List Char → List (List Char)) (text : List Char) :
    ∀ s ∈ split_into_sentences_robust tok text,
      5 ≤ wcount s ∧
      (30 ≤ s.length ∨ (20 ≤ s.length ∧ ∃ p, 40 < wcount p ∧ s ∈ commaSubparts p)) := by
  intro s hs
  unfold split_into_sentences_robust at hs
  split at hs
  · simp at hs
  · obtain ⟨sent, _, hcon⟩ := List.mem_flatMap.mp hs
    unfold sentContribution at hcon
    split at hcon
    · simp at hcon
    · next hkeep =>
      push_neg at hkeep
      obtain ⟨hw5, hl30⟩ := hkeep
      split at hcon
      · simp at hcon
      · split at hcon
        · -- long sentence: s comes from split_long_sentence
          unfold split_long_sentence at hcon
          split at hcon
          · simp only [List.mem_singleton] at hcon
            subst hcon
            exact ⟨by omega, Or.inl (by omega)⟩
          · obtain ⟨part, _, hpc⟩ := List.mem_flatMap.mp hcon
            unfold partContribution at hpc
            split at hpc
            · next hsurv =>
              obtain ⟨h5, h30, _⟩ := hsurv
              split at hpc
              · next h40 =>
                obtain ⟨cp, _, hcpe⟩ := List.mem_filterMap.mp hpc
                split at hcpe
                · next hcs =>
                  obtain ⟨hc5, hc20⟩ := hcs
                  simp only [Option.some_inj] at hcpe
                  subst hcpe
                  refine ⟨hc5, Or.inr ⟨hc20, stripL part, h40, ?_⟩⟩
                  unfold commaSubparts
                  exact List.mem_filterMap.mpr ⟨cp, by assumption, by rw [if_pos ⟨hc5, hc20⟩]⟩
                · simp at hcpe
              · simp only [List.mem_singleton] at hpc
                subst hpc
                exact ⟨h5, Or.inl h30⟩
            · simp at hpc
        · simp only [List.mem_singleton] at hcon
          subst hcon
          exact ⟨by omega, Or.inl (by omega)⟩

/-- Witness for C8 at a concrete six-word sentence. -/
theorem claim_C8_witness :
    5 ≤ wcount ("alpha beta gamma delta epsilon zeta".data) ∧
    (30 ≤ ("alpha beta gamma delta epsilon zeta".data).length ∨
      (20 ≤ ("alpha beta gamma delta epsilon zeta".data).length ∧
        ∃ p, 40 < wcount p ∧
          ("alpha beta gamma delta epsilon zeta".data) ∈ commaSubparts p)) :=
  claim_C8 (fun t => [t]) ("alpha beta gamma delta epsilon zeta".data)
    ("alpha beta gamma delta epsilon zeta".data) (by decide)

/-- Claim C9: every segment emitted by preprocess_content has between 3 and
100 words. -/
theorem claim_C9 (text : List Char) :
    ∀ s ∈ preprocess_content text, 3 ≤ wcount s ∧ wcount s ≤ 100 := by
  intro s hs
  unfold preprocess_content at hs
  obtain ⟨seg, _, hf⟩ := List.mem_flatMap.mp hs
  unfold finalFilter at hf
  split at hf
  · next hin =>
    simp only [List.mem_singleton] at hf
    subst hf; exact hin
  · split at hf
    · -- force-split branch
      unfold force_split_long_segment at hf
      obtain ⟨w, hw, hwe⟩ := List.mem_filterMap.mp hf
      split at hwe
      · next h3 =>
        simp only [Option.some_inj] at hwe
        subst hwe
        have hflat : (chunk50 (pySplit seg)).flatten = pySplit seg := by
          unfold chunk50
          simpa using chunksAux_flatten (pySplit seg) [] 50
        have hgood : ∀ x ∈ w, x ≠ [] ∧ ∀ c ∈ x, isSpace c = false := by
          intro x hx
          refine pySplit_words seg x ?_
          rw [← hflat]
          exact List.mem_flatten.mpr ⟨w, hw, hx⟩
        have hlen := (chunksAux_mem_le (pySplit seg) [] 50 (by simp) w hw).2
        rw [wcount_joinSpace w hgood]
        exact ⟨h3, by omega⟩
      · simp at hwe
    · simp at hf

/-- Witness for C9 at a concrete three-word text. -/
theorem claim_C9_witness :
    3 ≤ wcount ("a b c".data) ∧ wcount ("a b c".data) ≤ 100 :=
  claim_C9 ("a b c".data) ("a b c".data) (by decide)

/-- Splitting the space-joins of word chunks recovers the flattened words. -/
theorem flatMap_pySplit_joinSpace (L : List (List (List Char)))
    (h : ∀ c ∈ L, pySplit (joinSpace c) = c) :
    (L.map joinSpace).flatMap pySplit = L.flatten := by
  induction L with
  | nil => rfl
  | cons c L ih =>
    simp only [List.map_cons, List.flatMap_cons, List.flatten_cons,
      h c (by simp), ih (fun x hx => h x (by simp [hx]))]

/-- Claim C10: force_split_long_segment partitions the whitespace words into
consecutive 50-word windows in order; every window except possibly the last
has exactly 50 words; each emitted segment is a window of at least 3 words
joined with single spaces; when the word count is 1 or 2 mod 50 the trailing
window is dropped, losing the final words; fewer than 3 words give an empty
result. -/
theorem claim_C10 (text : List Char) :
    (chunk50 (pySplit text)).flatten = pySplit text ∧
    (∀ c ∈ (chunk50 (pySplit text)).dropLast, c.length = 50) ∧
    (∀ c ∈ chunk50 (pySplit text), 0 < c.length ∧ c.length ≤ 50) ∧
    (∀ s ∈ force_split_long_segment text,
      ∃ w ∈ chunk50 (pySplit text), 3 ≤ w.length ∧ s = joinSpace w ∧ pySplit s = w) ∧
    ((pySplit text).length % 50 = 1 ∨ (pySplit text).length % 50 = 2 →
      force_split_long_segment text = ((chunk50 (pySplit text)).dropLast).map joinSpace ∧
      (force_split_long_segment text).flatMap pySplit =
        (pySplit text).take ((pySplit text).length - (pySplit text).length % 50)) ∧
    ((pySplit text).length < 3 → force_split_long_segment text = []) := by
  have hflat : (chunk50 (pySplit text)).flatten = pySplit text := by
    unfold chunk50
    simpa using chunksAux_flatten (pySplit text) [] 50
  have hle : ∀ c ∈ chunk50 (pySplit text), 0 < c.length ∧ c.length ≤ 50 := by
    unfold chunk50
    exact chunksAux_mem_le (pySplit text) [] 50 (by simp)
  have hdl : ∀ c ∈ (chunk50 (pySplit text)).dropLast, c.length = 50 := by
    unfold chunk50
    exact chunksAux_dropLast (pySplit text) [] 50 (by simp)
  have hgood : ∀ w ∈ chunk50 (pySplit text), ∀ x ∈ w,
      x ≠ [] ∧ ∀ c ∈ x, isSpace c = false := by
    intro w hw x hx
    refine pySplit_words text x ?_
    rw [← hflat]
    exact List.mem_flatten.mpr ⟨w, hw, hx⟩
  have hfs : force_split_long_segment text =
      ((chunk50 (pySplit text)).filter (fun w => decide (3 ≤ w.length))).map joinSpace := by
    unfold force_split_long_segment
    exact filterMap_ite (fun w => 3 ≤ w.length) joinSpace _
  refine ⟨hflat, hdl, hle, ?_, ?_, ?_⟩
  · intro s hs
    rw [hfs] at hs
    obtain ⟨w, hwf, hwe⟩ := List.mem_map.mp hs
    obtain ⟨hwc, hw3⟩ := List.mem_filter.mp hwf
    refine ⟨w, hwc, by simpa using hw3, hwe.symm, ?_⟩
    rw [← hwe]
    exact pySplit_joinSpace w (hgood w hwc)
  · intro hr
    have hWne : pySplit text ≠ [] := by
      intro h; rw [h] at hr; simp at hr
    have hCne : chunk50 (pySplit text) ≠ [] := by
      intro h; rw [h] at hflat; exact hWne hflat.symm
    set C := chunk50 (pySplit text) with hC
    have hsplit := List.dropLast_append_getLast hCne
    set last := C.getLast hCne with hlast
    -- length bookkeeping
    have hflat2 : C.dropLast.flatten ++ last = pySplit text := by
      have hx : (C.dropLast ++ [last]).flatten = pySplit text := by
        rw [hsplit]; exact hflat
      simpa [List.flatten_append] using hx
    have hdllen : C.dropLast.flatten.length = C.dropLast.length * 50 := by
      rw [List.length_flatten]
      have hrep : C.dropLast.map List.length = List.replicate C.dropLast.length 50 := by
        have := List.eq_replicate_of_mem (a := 50) (l := C.dropLast.map List.length) ?_
        · simpa using this
        · intro x hx
          obtain ⟨c, hc, hce⟩ := List.mem_map.mp hx
          rw [← hce]; exact hdl c hc
      rw [hrep, List.sum_replicate, smul_eq_mul]
    have hlastlen : 0 < last.length ∧ last.length ≤ 50 :=
      hle last (List.getLast_mem hCne)
    have hWlen : (pySplit text).length = 50 * C.dropLast.length + last.length := by
      rw [← hflat2, List.length_append, hdllen]; omega
    have hlastr : last.length = (pySplit text).length % 50 := by omega
    have hfilter : C.filter (fun w => decide (3 ≤ w.length)) = C.dropLast := by
      conv_lhs => rw [← hsplit]
      rw [List.filter_append]
      have h1 : C.dropLast.filter (fun w => decide (3 ≤ w.length)) = C.dropLast := by
        rw [List.filter_eq_self]
        intro c hc
        have := hdl c hc
        simp [this]
      have h2 : [last].filter (fun w => decide (3 ≤ w.length)) = [] := by
        simp only [List.filter_cons, List.filter_nil]
        rw [if_neg (by simp; omega)]
      rw [h1, h2, List.append_nil]
    constructor
    · rw [hfs, hfilter]
    · rw [hfs, hfilter]
      have hsub : ∀ c ∈ C.dropLast, c ∈ C := by
        intro c hc; rw [← hsplit]; exact List.mem_append_left _ hc
      have hps := flatMap_pySplit_joinSpace C.dropLast
        (fun c hc => pySplit_joinSpace c (hgood c (hsub c hc)))
      rw [hps]
      have hAlen : C.dropLast.flatten.length =
          (pySplit text).length - (pySplit text).length % 50 := by omega
      rw [← hAlen]
      conv_rhs => rw [← hflat2]
      rw [List.take_left]
  · intro h3
    rw [hfs]
    have hnil : (chunk50 (pySplit text)).filter (fun w => decide (3 ≤ w.length)) = [] := by
      rw [List.filter_eq_nil_iff]
      intro c hc
      have hclen : c.length ≤ (pySplit text).length := by
        rw [← hflat, List.length_flatten]
        exact List.single_le_sum (by intro x _; omega)
          c.length (List.mem_map.mpr ⟨c, hc, rfl⟩)
      simp; omega
    rw [hnil]; rfl

/-- The split_markers list of FedPressConfProcessor._structure_press_conf in
process_press_conf.py, in source order. -/
def pressConfMarkers : List (List Char) :=
  [ "I will now take your questions".data,
    "I am happy to take your questions".data,
    ("I" ++ apostS ++ "m happy to take your questions").data,
    "happy to take your questions".data,
    "happy to respond to your questions".data,
    "We will now take questions".data,
    "Q & A".data,
    "MICHELLE SMITH. Thank you".data,
    "MICHELLE SMITH. We will now go to".data,
    ("MICHELLE SMITH. We" ++ apostS ++ "ll go to").data,
    ("MICHELLE SMITH. Let" ++ apostS ++ "s go to").data,
    "MICHELLE SMITH. Our first question".data,
    ("I" ++ apostS ++ "ll be happy to take your questions").data,
    "I will be happy to take your questions".data,
    ("we" ++ apostS ++ "ll be happy to take your questions").data,
    "MICHELLE SMITH.".data,
    "look forward to your questions".data,
    "I look forward to your questions".data,
    "I look forward to taking your questions".data,
    "I would be happy to take your questions".data]

/-- One step of the minimum-index loop of _structure_press_conf: update the
running minimum when the marker was found at a strictly smaller index. -/
def stepMin (acc : Option Nat) (idx : Option Nat) : Option Nat :=
  match idx with
  | none => acc
  | some i =>
    match acc with
    | none => some i
    | some j => if i < j then some i else some j

/-- The Q&A split index chosen by _structure_press_conf: the minimum over the
marker list of text_lower.find(marker.lower()), none when no marker occurs. -/
def structureSplitIdx (markers : List (List Char)) (text : List Char) : Option Nat :=
  markers.foldl (fun acc m => stepMin acc (strFind (lowerL m) (lowerL text))) none

/-- Marker m occurs (case-insensitively) at position i of the text. -/
def occursAt (text m : List Char) (i : Nat) : Prop :=
  isPre (lowerL m) ((lowerL text).drop i) = true

/-- The section spans produced by _structure_press_conf before speaker
extraction: text[:split_idx] as Opening Statement and text[split_idx:] as
Q&A when a marker is found, the whole text as Full Text otherwise. -/
def structureSpans (markers : List (List Char)) (text : List Char) :
    List (String × List Char) :=
  match structureSplitIdx markers text with
  | some i => [("Opening Statement", text.take i), ("Q&A", text.drop i)]
  | none => [("Full Text", text)]

/-- strFind misses exactly when the needle occurs at no position. -/
theorem strFind_none_iff (needle hay : List Char) :
    strFind needle hay = none ↔ ∀ j, isPre needle (hay.drop j) = false := by
  induction hay with
  | nil =>
    simp only [strFind]
    constructor
    · intro h j
      by_cases hp : isPre needle [] = true
      · rw [if_pos hp] at h; exact absurd h (by simp)
      · simpa using hp
    · intro h
      rw [if_neg (by simpa using h 0)]
  | cons c t ih =>
    simp only [strFind]
    constructor
    · intro h j
      by_cases hp : isPre needle (c :: t) = true
      · rw [if_pos hp] at h; exact absurd h (by simp)
      · rw [if_neg hp] at h
        have ht : strFind needle t = none := by
          cases hfind : strFind needle t with
          | none => rfl
          | some k => rw [hfind] at h; exact absurd h (by simp)
        cases j with
        | zero => simpa using hp
        | succ j => simpa using (ih.mp ht) j
    · intro h
      rw [if_neg (by simpa using h 0), ih.mpr (fun j => by simpa using h (j + 1))]
      rfl

/-- strFind returns the first occurrence position of the needle. -/
theorem strFind_some (needle hay : List Char) : ∀ i,
    strFind needle hay = some i →
    isPre needle (hay.drop i) = true ∧ ∀ j < i, isPre needle (hay.drop j) = false := by
  induction hay with
  | nil =>
    intro i h
    simp only [strFind] at h
    split at h
    · next hp =>
      have hi : i = 0 := by simpa using h.symm
      subst hi
      exact ⟨by simpa using hp, fun j hj => absurd hj (by omega)⟩
    · exact absurd h (by simp)
  | cons c t ih =>
    intro i h
    simp only [strFind] at h
    split at h
    · next hp =>
      have hi : i = 0 := by simpa using h.symm
      subst hi
      exact ⟨by simpa using hp, fun j hj => absurd hj (by omega)⟩
    · next hp =>
      cases hfind : strFind needle t with
      | none => rw [hfind] at h; exact absurd h (by simp)
      | some k =>
        rw [hfind] at h
        simp at h
        subst h
        obtain ⟨h1, h2⟩ := ih k hfind
        refine ⟨by simpa using h1, ?_⟩
        intro j hj
        cases j with
        | zero => simpa using hp
        | succ j => simpa using h2 j (by omega)

/-- If the needle occurs at position j, strFind returns some position at most
j. -/
theorem strFind_le_of_occurs (needle hay : List Char) (j : Nat)
    (h : isPre needle (hay.drop j) = true) :
    ∃ k, k ≤ j ∧ strFind needle hay = some k := by
  cases hfind : strFind needle hay with
  | none =>
    have := (strFind_none_iff needle hay).mp hfind j
    rw [h] at this
    exact absurd this (by simp)
  | some k =>
    refine ⟨k, ?_, rfl⟩
    by_contra hlt
    push_neg at hlt
    have := (strFind_some needle hay k hfind).2 j hlt
    rw [h] at this
    exact absurd this (by simp)

/-- Characterization of one stepMin update. -/
theorem stepMin_eq_some (acc o : Option Nat) (i : Nat) :
    stepMin acc o = some i ↔
      ((acc = some i ∧ ∀ k, o = some k → i ≤ k) ∨
        (o = some i ∧ ∀ j, acc = some j → i ≤ j)) := by
  cases o with
  | none => simp [stepMin]
  | some v =>
    cases acc with
    | none =>
      simp only [stepMin]
      constructor
      · intro h
        exact Or.inr ⟨h, by simp⟩
      · rintro (⟨h1, _⟩ | ⟨h1, _⟩)
        · exact absurd h1 (by simp)
        · exact h1
    | some j =>
      simp only [stepMin]
      split
      · next hvj =>
        constructor
        · intro h
          have hvi : v = i := by simpa using h
          subst hvi
          exact Or.inr ⟨rfl, fun j2 hj2 => by
            have : j2 = j := by simpa using hj2.symm
            omega⟩
        · rintro (⟨h1, h2⟩ | ⟨h1, h2⟩)
          · have hji : j = i := by simpa using h1
            have := h2 v rfl
            omega
          · exact h1
      · next hvj =>
        constructor
        · intro h
          have hji : j = i := by simpa using h
          subst hji
          exact Or.inl ⟨rfl, fun k hk => by
            have : k = v := by simpa using hk.symm
            omega⟩
        · rintro (⟨h1, h2⟩ | ⟨h1, h2⟩)
          · exact h1
          · have hvi : v = i := by simpa using h1
            have := h2 j rfl
            have : j = i := by omega
            simpa using this

/-- The minimum-index fold returns none exactly when every marker misses. -/
theorem foldl_stepMin_none_iff {α : Type} (f : α → Option Nat) (l : List α) :
    ∀ acc, l.foldl (fun a m => stepMin a (f m)) acc = none ↔
      (acc = none ∧ ∀ m ∈ l, f m = none) := by
  induction l with
  | nil => intro acc; simp
  | cons m l ih =>
    intro acc
    simp only [List.foldl_cons]
    rw [ih (stepMin acc (f m))]
    constructor
    · rintro ⟨h1, h2⟩
      cases hf : f m with
      | none =>
        rw [hf] at h1
        refine ⟨h1, ?_⟩
        intro x hx
        rcases List.mem_cons.mp hx with h | h
        · subst h; exact hf
        · exact h2 x h
      | some v =>
        rw [hf] at h1
        exfalso
        cases acc with
        | none => exact absurd h1 (by simp [stepMin])
        | some j =>
          simp only [stepMin] at h1
          split at h1 <;> exact absurd h1 (by simp)
    · rintro ⟨h1, h2⟩
      subst h1
      have hf : f m = none := h2 m (by simp)
      rw [hf]
      exact ⟨rfl, fun x hx => h2 x (by simp [hx])⟩

/-- The minimum-index fold computes exactly the least found index. -/
theorem foldl_stepMin_some_iff {α : Type} (f : α → Option Nat) (l : List α) :
    ∀ acc i, l.foldl (fun a m => stepMin a (f m)) acc = some i ↔
      ((acc = some i ∨ ∃ m ∈ l, f m = some i) ∧
        (∀ j, acc = some j → i ≤ j) ∧ (∀ m ∈ l, ∀ k, f m = some k → i ≤ k)) := by
  induction l with
  | nil =>
    intro acc i
    simp only [List.foldl_nil]
    constructor
    · intro h
      refine ⟨Or.inl h, fun j hj => ?_, by simp⟩
      rw [h] at hj
      have : i = j := by simpa using hj
      omega
    · rintro ⟨h1 | h1, _, _⟩
      · exact h1
      · exact absurd h1 (by simp)
  | cons m l ih =>
    intro acc i
    simp only [List.foldl_cons]
    rw [ih (stepMin acc (f m)) i]
    constructor
    · rintro ⟨h1, h2, h3⟩
      have hstep : ∀ j, acc = some j → i ≤ j := by
        intro j hj
        cases hf : f m with
        | none =>
          exact h2 j (by rw [hf] at *; simp [stepMin, hj])
        | some v =>
          subst hj
          simp only [stepMin, hf] at h2
          by_cases hvj : v < j
          · have := h2 v (by rw [if_pos hvj])
            omega
          · exact h2 j (by rw [if_neg hvj])
      have hstepf : ∀ k, f m = some k → i ≤ k := by
        intro k hk
        cases acc with
        | none => exact h2 k (by simp [stepMin, hk])
        | some j =>
          simp only [stepMin, hk] at h2
          by_cases hkj : k < j
          · exact h2 k (by rw [if_pos hkj])
          · have := h2 j (by rw [if_neg hkj])
            omega
      refine ⟨?_, hstep, ?_⟩
      · rcases h1 with h1 | ⟨m2, hm2, hf2⟩
        · rcases (stepMin_eq_some acc (f m) i).mp h1 with ⟨ha, _⟩ | ⟨ho, _⟩
          · exact Or.inl ha
          · exact Or.inr ⟨m, by simp, ho⟩
        · exact Or.inr ⟨m2, by simp [hm2], hf2⟩
      · intro m2 hm2 k hk
        rcases List.mem_cons.mp hm2 with h | h
        · subst h; exact hstepf k hk
        · exact h3 m2 h k hk
    · rintro ⟨h1, h2, h3⟩
      have h3m : ∀ k, f m = some k → i ≤ k := fun k hk => h3 m (by simp) k hk
      have h3l : ∀ m2 ∈ l, ∀ k, f m2 = some k → i ≤ k :=
        fun m2 hm2 k hk => h3 m2 (by simp [hm2]) k hk
      refine ⟨?_, ?_, h3l⟩
      · rcases h1 with h1 | ⟨m2, hm2, hf2⟩
        · exact Or.inl ((stepMin_eq_some acc (f m) i).mpr (Or.inl ⟨h1, h3m⟩))
        · rcases List.mem_cons.mp hm2 with h | h
          · subst h
            exact Or.inl ((stepMin_eq_some _ _ _).mpr (Or.inr ⟨hf2, h2⟩))
          · exact Or.inr ⟨m2, h, hf2⟩
      · intro j hj
        rcases (stepMin_eq_some acc (f m) j).mp hj with ⟨ha, _⟩ | ⟨ho, _⟩
        · exact h2 j ha
        · exact h3m j ho

/-- The split index misses exactly when every marker misses. -/
theorem structureSplitIdx_none_iff (markers : List (List Char)) (text : List Char) :
    structureSplitIdx markers text = none ↔
      ∀ m ∈ markers, strFind (lowerL m) (lowerL text) = none := by
  unfold structureSplitIdx
  rw [foldl_stepMin_none_iff]
  simp

/-- The split index is the least index at which some marker is found. -/
theorem structureSplitIdx_some_iff (markers : List (List Char)) (text : List Char)
    (i : Nat) :
    structureSplitIdx markers text = some i ↔
      ((∃ m ∈ markers, strFind (lowerL m) (lowerL text) = some i) ∧
        ∀ m ∈ markers, ∀ k, strFind (lowerL m) (lowerL text) = some k → i ≤ k) := by
  unfold structureSplitIdx
  rw [foldl_stepMin_some_iff]
  simp

/-- The split index does not depend on the order of the marker list. -/
theorem structureSplitIdx_perm (ms : List (List Char)) (text : List Char)
    (h : ms.Perm pressConfMarkers) :
    structureSplitIdx ms text = structureSplitIdx pressConfMarkers text := by
  cases hidx : structureSplitIdx pressConfMarkers text with
  | none =>
    rw [structureSplitIdx_none_iff] at hidx
    rw [structureSplitIdx_none_iff]
    intro m hm
    exact hidx m (h.subset hm)
  | some i =>
    rw [structureSplitIdx_some_iff] at hidx
    obtain ⟨⟨m, hm, hf⟩, hlb⟩ := hidx
    rw [structureSplitIdx_some_iff]
    exact ⟨⟨m, h.mem_iff.mpr hm, hf⟩, fun m2 hm2 k hk => hlb m2 (h.subset hm2) k hk⟩

/-- Claim C2: the Q&A split index equals the earliest position at which any
marker of the fixed list occurs case-insensitively, independently of the
order of the marker list; when some marker occurs the text is split there
into Opening Statement and Q&A, and when no marker occurs anywhere the whole
text is processed as a single Full Text section. -/
theorem claim_C2 (text : List Char) (ms : List (List Char))
    (hperm : ms.Perm pressConfMarkers) :
    structureSplitIdx ms text = structureSplitIdx pressConfMarkers text ∧
    (∀ i, structureSplitIdx pressConfMarkers text = some i →
      (∃ m ∈ pressConfMarkers, occursAt text m i) ∧
      (∀ j m, m ∈ pressConfMarkers → occursAt text m j → i ≤ j) ∧
      structureSpans pressConfMarkers text =
        [("Opening Statement", text.take i), ("Q&A", text.drop i)]) ∧
    ((∀ m ∈ pressConfMarkers, ∀ j, ¬ occursAt text m j) →
      structureSpans pressConfMarkers text = [("Full Text", text)]) := by
  refine ⟨structureSplitIdx_perm ms text hperm, ?_, ?_⟩
  · intro i hi
    have hi2 := hi
    rw [structureSplitIdx_some_iff] at hi2
    obtain ⟨⟨m, hm, hf⟩, hlb⟩ := hi2
    refine ⟨⟨m, hm, (strFind_some (lowerL m) (lowerL text) i hf).1⟩, ?_, ?_⟩
    · intro j m2 hm2 hocc
      obtain ⟨k, hkj, hk⟩ := strFind_le_of_occurs (lowerL m2) (lowerL text) j hocc
      exact le_trans (hlb m2 hm2 k hk) hkj
    · unfold structureSpans
      rw [hi]
  · intro hnone
    have hidx : structureSplitIdx pressConfMarkers text = none := by
      rw [structureSplitIdx_none_iff]
      intro m hm
      rw [strFind_none_iff]
      intro j
      have := hnone m hm j
      unfold occursAt at this
      simpa using this
    unfold structureSpans
    rw [hidx]

/-- A transcript with two markers, Q & A at position 25 and a take-your-
questions phrase later. -/
def wPressText : List Char :=
  "Good afternoon everyone. Q & A. I will now take your questions now.".data

/-- Witness for C2: the reversed marker list gives the same split index, and
some marker indeed occurs at the chosen position 25. -/
theorem claim_C2_witness :
    structureSplitIdx (pressConfMarkers.reverse) wPressText =
      structureSplitIdx pressConfMarkers wPressText ∧
    (∃ m ∈ pressConfMarkers, occursAt wPressText m 25) :=
  ⟨(claim_C2 wPressText pressConfMarkers.reverse (List.reverse_perm _)).1,
    ((claim_C2 wPressText pressConfMarkers.reverse (List.reverse_perm _)).2.1 25
      (by decide)).1⟩

/-- A right single quotation mark (the smart-quote variant used by recent
minutes), written by code point. -/
def smartQ : String := String.mk [Char.ofNat 8217]

/-- The section_patterns mapping of extract_sections in process_minutes.py:
canonical section name to the ordered list of header aliases. -/
def sectionPatterns : List (String × List (List Char)) :=
  [ ("Developments in Financial Markets",
      [ "Developments in Financial Markets and Open Market Operations".data]),
    ("Inflation Analysis",
      [ "Inflation Analysis and Forecasting".data]),
    ("Staff Review of Economic Situation",
      [ "Staff Review of the Economic Situation".data,
        "The information reviewed for the".data]),
    ("Staff Review of Financial Situation",
      [ "Staff Review of the Financial Situation".data]),
    ("Staff Economic Outlook",
      [ "Staff Economic Outlook".data]),
    ("Participants" ++ apostS ++ " Views",
      [ ("Participants" ++ apostS ++ " Views on Current Conditions and the Economic Outlook").data,
        ("Participants" ++ apostS ++ " Views on Current Conditions").data,
        ("Participants" ++ smartQ ++ " Views on Current Conditions").data,
        "Discussion of Monetary Policy".data]),
    ("Committee Policy Action",
      [ "Committee Policy Action".data])]

/-- One located section header: canonical name, start offset in the text, and
the header character length recorded to skip the header. -/
structure SectionMatch where
  name : String
  start : Nat
  hlen : Nat
  deriving DecidableEq

instance : DecidableRel (fun a b : SectionMatch => a.start ≤ b.start) :=
  fun a b => Nat.decLe a.start b.start

/-- The inner alias loop of extract_sections: the first alias found anywhere
in the text (case-insensitively) yields its start offset and length. -/
def findFirstAlias (text : List Char) (aliases : List (List Char)) : Option (Nat × Nat) :=
  aliases.findSome? (fun kw => (strFind (lowerL kw) (lowerL text)).map (fun i => (i, kw.length)))

/-- All located section headers of a text, in mapping order. -/
def sectionMatches (text : List Char) : List SectionMatch :=
  sectionPatterns.filterMap (fun pat =>
    (findFirstAlias text pat.2).map (fun r => ⟨pat.1, r.1, r.2⟩))

/-- The slicing loop of extract_sections: each section's stripped content runs
from the end of its header to the start of the next section, the last to the
document end (Python slice semantics, so an empty range gives empty text). -/
def sliceSections (text : List Char) : List SectionMatch → List (String × List Char)
  | [] => []
  | [m] => [(m.name, stripL (text.drop (m.start + m.hlen)))]
  | m :: m2 :: rest =>
    (m.name, stripL ((text.drop (m.start + m.hlen)).take (m2.start - (m.start + m.hlen)))) ::
      sliceSections text (m2 :: rest)

/-- process_minutes.py extract_sections: locate the headers, return [] when
none is found, otherwise sort by start offset (Python's stable ascending
sort, modelled by insertion sort) and slice. -/
def extract_sections (text : List Char) : List (String × List Char) :=
  if sectionMatches text = [] then []
  else sliceSections text
    (List.insertionSort (fun a b => a.start ≤ b.start) (sectionMatches text))

/-- The slice stated the way the specification words it: section i's content
is the text from (start_i + header_length_i) to start_{i+1}, and the last
section's content extends to the document end. -/
def sliceSpec (text : List Char) (L : List SectionMatch) : List (String × List Char) :=
  (L.zipWith (fun m m2 =>
    (m.name, stripL ((text.drop (m.start + m.hlen)).take (m2.start - (m.start + m.hlen)))))
    L.tail) ++
  (match L.getLast? with
   | none => []
   | some m => [(m.name, stripL (text.drop (m.start + m.hlen)))])

/-- The slicing loop agrees with the specification's indexed description. -/
theorem sliceSections_eq_spec (text : List Char) :
    ∀ L, sliceSections text L = sliceSpec text L := by
  intro L
  induction L with
  | nil => rfl
  | cons m L ih =>
    cases L with
    | nil => rfl
    | cons m2 rest =>
      show (m.name, _) :: sliceSections text (m2 :: rest) = sliceSpec text (m :: m2 :: rest)
      rw [ih]
      simp only [sliceSpec, List.tail_cons, List.zipWith_cons_cons,
        List.getLast?_cons_cons, List.cons_append]

/-- Claim C3: the sections produced by extract_sections are ordered by
ascending start offset of their matched headers; each section's content runs
from the end of its header to the start of the next matched header, the last
one to the document end, so the matched header text is excluded from the
content; and when no alias matches anywhere the result is empty. -/
theorem claim_C3 (text : List Char) :
    List.Pairwise (fun a b => a.start ≤ b.start)
      (List.insertionSort (fun a b => a.start ≤ b.start) (sectionMatches text)) ∧
    (List.insertionSort (fun a b => a.start ≤ b.start) (sectionMatches text)).Perm
      (sectionMatches text) ∧
    extract_sections text =
      sliceSpec text
        (List.insertionSort (fun a b => a.start ≤ b.start) (sectionMatches text)) ∧
    ((∀ pat ∈ sectionPatterns, ∀ kw ∈ pat.2, strFind (lowerL kw) (lowerL text) = none) →
      extract_sections text = []) := by
  refine ⟨?_, List.perm_insertionSort _ _, ?_, ?_⟩
  · haveI : IsTotal SectionMatch (fun a b => a.start ≤ b.start) :=
      ⟨fun a b => Nat.le_total a.start b.start⟩
    haveI : IsTrans SectionMatch (fun a b => a.start ≤ b.start) :=
      ⟨fun a b c h1 h2 => Nat.le_trans h1 h2⟩
    exact List.sorted_insertionSort _ _
  · unfold extract_sections
    by_cases hm : sectionMatches text = []
    · rw [if_pos hm, hm]
      rfl
    · rw [if_neg hm, sliceSections_eq_spec]
  · intro hall
    have hm : sectionMatches text = [] := by
      unfold sectionMatches
      rw [List.filterMap_eq_nil_iff]
      intro pat hpat
      have hfa : findFirstAlias text pat.2 = none := by
        unfold findFirstAlias
        rw [List.findSome?_eq_none_iff]
        intro kw hkw
        rw [hall pat hpat kw hkw]
        rfl
      rw [hfa]
      rfl
    unfold extract_sections
    rw [if_pos hm]

/-- A minutes-like text with two section headers. -/
def wMinutesText : List Char :=
  "Staff Economic Outlook AAA Committee Policy Action BBB".data

/-- Witness for C3: a text where no alias occurs yields no sections, and a
concrete two-header text is sliced per the specification's description. -/
theorem claim_C3_witness :
    extract_sections ("zz".data) = [] ∧
    extract_sections wMinutesText =
      sliceSpec wMinutesText
        (List.insertionSort (fun a b => a.start ≤ b.start) (sectionMatches wMinutesText)) :=
  ⟨(claim_C3 ("zz".data)).2.2.2 (by decide), (claim_C3 wMinutesText).2.2.1⟩

/-- A text of 51 single-letter words. -/
def exFiftyOne : List Char := joinSpace (List.replicate 51 ("w".data))

/-- Witness for C10: two words give an empty result, and for 51 words the
trailing one-word window is dropped. -/
theorem claim_C10_witness :
    force_split_long_segment ("a b".data) = [] ∧
    force_split_long_segment exFiftyOne =
      ((chunk50 (pySplit exFiftyOne)).dropLast).map joinSpace :=
  ⟨(claim_C10 ("a b".data)).2.2.2.2.2 (by decide),
    ((claim_C10 exFiftyOne).2.2.2.2.1 (Or.inl (by decide))).1⟩

end FedText
